import Mathlib

/-!
Verification of an in-memory shell/filesystem simulator.

The simulator keeps a tree of files and directories, resolves slash-delimited
paths, and interprets built-in commands (`pwd`, `cd`, `ls`, `cat`, `mkdir`,
`whoami`, `termux-fix-shebang`) plus scripted `git` sub-commands
(`clone`, `commit`, `log`, `diff`, `fetch`), together with a line editor that
offers incremental reverse history search and tab completion.

This file shallowly embeds the relevant operations (strings are handled
through their character lists so that everything is executable and provable
by structural induction) and settles the specification's claims about them.
-/

namespace Sim

/-- Split a character list at every `/`, keeping empty pieces — the embedding
of JavaScript `s.split('/')`. -/
def rawSplitSlash : List Char → List (List Char)
  | [] => [[]]
  | c :: cs =>
    if c = '/' then [] :: rawSplitSlash cs
    else
      match rawSplitSlash cs with
      | [] => [[c]]
      | g :: gs => (c :: g) :: gs

/-- Split a character list at every whitespace character. After discarding
empty pieces this agrees with JavaScript `s.split(/\s+/)` on strings with no
leading or trailing whitespace, which is how the interpreter uses it (it only
ever splits already-trimmed command lines). -/
def rawSplitWs : List Char → List (List Char)
  | [] => [[]]
  | c :: cs =>
    if c.isWhitespace then [] :: rawSplitWs cs
    else
      match rawSplitWs cs with
      | [] => [[c]]
      | g :: gs => (c :: g) :: gs

/-- `path.split('/').filter(p => p)` — slash-separated segments with empty
segments discarded. -/
def splitSegs (s : String) : List String :=
  ((rawSplitSlash s.data).filter (fun g => g ≠ [])).map (fun g => String.mk g)

/-- `fullCommand.split(/\s+/)` on a trimmed command line. -/
def jsSplitWs (s : String) : List String :=
  ((rawSplitWs s.data).filter (fun g => g ≠ [])).map (fun g => String.mk g)

/-- `parts.join('/')`. -/
def joinSegs : List String → String
  | [] => ""
  | [s] => s
  | s :: t :: rest => s ++ "/" ++ joinSegs (t :: rest)

/-- `'/' + parts.join('/')` — serialization of a resolved segment list. -/
def mkPath (parts : List String) : String := "/" ++ joinSegs parts

/-- JavaScript `s.startsWith(pre)`. -/
def jsStartsWith (s pre : String) : Bool := pre.data.isPrefixOf s.data

/-- JavaScript `s.endsWith(suf)`. -/
def endsWithStr (s suf : String) : Bool := suf.data.isSuffixOf s.data

/-- Substring containment on character lists (helper for `containsSub`). -/
def containsChars (n : List Char) : List Char → Bool
  | [] => n.isPrefixOf ([] : List Char)
  | c :: cs => n.isPrefixOf (c :: cs) || containsChars n cs

/-- JavaScript `haystack.includes(needle)`. -/
def containsSub (needle haystack : String) : Bool :=
  containsChars needle.data haystack.data

/-- JavaScript `s.trim()`. -/
def jsTrim (s : String) : String :=
  String.mk (((s.data.dropWhile Char.isWhitespace).reverse.dropWhile Char.isWhitespace).reverse)

/-- JavaScript `s.slice(0, -1)` — drop the last character. -/
def jsDropLast (s : String) : String := String.mk s.data.dropLast

/-- JavaScript `s || d` for strings: the default replaces the empty string. -/
def jsOrStr (s d : String) : String := if s = "" then d else s

/-- JavaScript `args.includes(a)` for argument lists. -/
def hasArg (args : List String) (a : String) : Bool :=
  match args with
  | [] => false
  | x :: rest => if x = a then true else hasArg rest a

/-- The filesystem node type: a file with string content, or a directory with
an ordered association list of named children (a JavaScript object keyed by
name, insertion-ordered). -/
inductive FSNode where
  | file (content : String)
  | directory (children : List (String × FSNode))

/-- Lookup of `children[name]`. -/
def childLookup (ch : List (String × FSNode)) (name : String) : Option FSNode :=
  match ch with
  | [] => none
  | (k, v) :: rest => if k = name then some v else childLookup rest name

/-- JavaScript `children[name] = v`: replace in place when present, append
otherwise. -/
def jsSetChild (ch : List (String × FSNode)) (name : String) (v : FSNode) : List (String × FSNode) :=
  match ch with
  | [] => [(name, v)]
  | (k, w) :: rest => if k = name then (k, v) :: rest else (k, w) :: jsSetChild rest name v

/-- Walk a node along a list of segments: fails when an intermediate node is
not a directory or a segment is absent (the loop body of `getNode`). -/
def lookupSegs : FSNode → List String → Option FSNode
  | node, [] => some node
  | .file _, _ :: _ => none
  | .directory ch, s :: rest =>
    match childLookup ch s with
    | none => none
    | some child => lookupSegs child rest

/-- `getNode(path)` against a given root. -/
def getNode (root : FSNode) (path : String) : Option FSNode :=
  lookupSegs root (splitSegs path)

/-- Apply `f` to the children of the directory found at `segs` (the embedding
of in-place mutation of that directory's `children` object). -/
def updateAtSegs : FSNode → List String → (List (String × FSNode) → List (String × FSNode)) → FSNode
  | .file c, _, _ => .file c
  | .directory ch, [], f => .directory (f ch)
  | .directory ch, s :: rest, f =>
    .directory (ch.map (fun kv => if kv.1 = s then (kv.1, updateAtSegs kv.2 rest f) else kv))

/-- Replace the node found at `segs` (the embedding of in-place mutation of a
file node's `content` field). -/
def setNodeAt : FSNode → List String → FSNode → FSNode
  | _, [], newNode => newNode
  | .file c, _ :: _, _ => .file c
  | .directory ch, s :: rest, newNode =>
    .directory (ch.map (fun kv => if kv.1 = s then (kv.1, setNodeAt kv.2 rest newNode) else kv))

/-- One step of the resolution loop of `resolvePath`: `.` is a no-op, `..`
pops the last segment (JavaScript `pop()` on an empty array is a no-op), any
other segment is pushed. -/
def stepSeg (acc : List String) (s : String) : List String :=
  if s = "." then acc
  else if s = ".." then acc.dropLast
  else acc ++ [s]

/-- `cwd === '/' ? [] : cwd.split('/').filter(p => p)`. -/
def baseSegs (cwd : String) : List String :=
  if cwd = "/" then [] else splitSegs cwd

/-- `resolvePath(cwd, path)` from the source: an expression starting with `/`
resets the base to root, the exact expression `~` short-circuits to the home
directory, and otherwise the expression's segments are folded over the
working directory's segments. -/
def resolvePath (cwd path : String) : String :=
  if jsStartsWith path "/" then mkPath (List.foldl stepSeg (baseSegs "/") (splitSegs path))
  else if path = "~" then "/home/kali"
  else mkPath (List.foldl stepSeg (baseSegs cwd) (splitSegs path))

/-- `fullPath.substring(fullPath.lastIndexOf('/') + 1)` — the text after the
last slash (the whole string when there is no slash). -/
def afterLastSlashStr (s : String) : String :=
  String.mk ((s.data.reverse.takeWhile (fun c => c ≠ '/')).reverse)

/-- `fullPath.substring(0, fullPath.lastIndexOf('/'))` — the text before the
last slash (empty when there is no slash, matching `substring(0, -1)`). -/
def beforeLastSlashStr (s : String) : String :=
  String.mk (((s.data.reverse.dropWhile (fun c => c ≠ '/')).drop 1).reverse)

/-- `parts.join('\n')`. -/
def joinNL : List String → String
  | [] => ""
  | [s] => s
  | s :: t :: rest => s ++ "\n" ++ joinNL (t :: rest)

/-- The `cd` case of `handleFileSystemCommand`: returns (output, new cwd). -/
def cdCmd (root : FSNode) (cwd : String) (args : List String) : String × String :=
  let target := jsOrStr (args.headD "") "/home/kali"
  let newPath := resolvePath cwd target
  match getNode root newPath with
  | some (.directory _) => ("", newPath)
  | _ => ("cd: no such file or directory: " ++ target, cwd)

/-- The `ls` case of `handleFileSystemCommand`: always lists `cwd`; the
argument list is consulted only for membership of the literal `-a`. -/
def lsCmd (root : FSNode) (cwd : String) (args : List String) : String :=
  match getNode root cwd with
  | some (.directory ch) =>
    let items := ch.map (fun kv => kv.1)
    let shown := if hasArg args "-a" then items
                 else items.filter (fun n => !(jsStartsWith n "."))
    joinNL (shown.map (fun n =>
      match childLookup ch n with
      | some (.directory _) => n ++ "/"
      | _ => n))
  | _ => "ls: cannot access " ++ cwd ++ ": No such file or directory"

/-- The `mkdir` case of `handleFileSystemCommand`: returns (output, new tree). -/
def mkdirCmd (root : FSNode) (cwd : String) (args : List String) : String × FSNode :=
  let targetPath := args.headD ""
  if targetPath = "" then ("mkdir: missing operand", root)
  else
    let fullPath := resolvePath cwd targetPath
    if (getNode root fullPath).isSome then
      ("mkdir: cannot create directory ‘" ++ targetPath ++ "’: File exists", root)
    else
      let parentPath := jsOrStr (beforeLastSlashStr fullPath) "/"
      let newDirName := afterLastSlashStr fullPath
      if newDirName = "" then
        ("mkdir: cannot create directory ‘" ++ targetPath ++ "’: Invalid argument", root)
      else
        match getNode root parentPath with
        | some (.directory _) =>
          ("", updateAtSegs root (splitSegs parentPath)
                 (fun ch => jsSetChild ch newDirName (.directory [])))
        | _ =>
          ("mkdir: cannot create directory ‘" ++ targetPath ++ "’: No such file or directory", root)

/-- Split a character list at every occurrence of the literal two-character
sequence backslash-`n`. The source's `content.split('\\n')` denotes exactly
this separator (a backslash followed by the letter n), not a newline. -/
def splitLitNL : List Char → List (List Char)
  | '\\' :: 'n' :: cs => [] :: splitLitNL cs
  | c :: cs =>
    match splitLitNL cs with
    | [] => [[c]]
    | g :: gs => (c :: g) :: gs
  | [] => [[]]

/-- `lines.join('\\n')` — join with the literal backslash-`n` sequence. -/
def joinLitNL : List (List Char) → List Char
  | [] => []
  | [g] => g
  | g :: h :: rest => g ++ '\\' :: 'n' :: joinLitNL (h :: rest)

/-- The fixed interpreter path written by `termux-fix-shebang`. -/
def fixedShebang : String := "#!/data/data/com.termux/files/usr/bin/python3"

/-- The `termux-fix-shebang` case of `handleFileSystemCommand`: returns
(output, new tree). The split/join separator is the literal backslash-`n`
sequence, exactly as the source writes it. -/
def termuxCmd (root : FSNode) (cwd : String) (args : List String) : String × FSNode :=
  let fileName := args.headD ""
  if fileName = "" then ("usage: termux-fix-shebang <file>", root)
  else
    let path := resolvePath cwd fileName
    match getNode root path with
    | none => ("termux-fix-shebang: file not found: " ++ fileName, root)
    | some (.directory _) => ("termux-fix-shebang: not a file: " ++ fileName, root)
    | some (.file content) =>
      match splitLitNL content.data with
      | [] => (fileName ++ " does not have a shebang or is empty.", root)
      | first :: rest =>
        if jsStartsWith (String.mk first) "#!" then
          let oldShebang := String.mk first
          let newContent := String.mk (joinLitNL (fixedShebang.data :: rest))
          ("shebang of " ++ fileName ++ " has been rewritten from '" ++ oldShebang ++
             "' to '" ++ fixedShebang ++ "'",
           setNodeAt root (splitSegs path) (.file newContent))
        else (fileName ++ " does not have a shebang or is empty.", root)

/-- Test whether the character list starts with `.git`. -/
def isGitPrefix (l : List Char) : Bool := ['.', 'g', 'i', 't'].isPrefixOf l

/-- Remove the first occurrence of the four-character sequence `.git` — the
semantics of JavaScript `s.replace('.git', '')` (string patterns replace only
the first occurrence, scanning left to right). -/
def removeFirstGit : List Char → List Char
  | [] => []
  | c :: cs => if isGitPrefix (c :: cs) then cs.drop 3 else c :: removeFirstGit cs

/-- `url.split('/').pop()` — the last raw slash-separated piece of the URL. -/
def lastSegChars (url : String) : List Char :=
  (rawSplitSlash url.data).getLastD []

/-- Repository-name derivation of the `git clone` simulator:
`repoUrl.split('/').pop()?.replace('.git', '') || 'repository'`. -/
def repoNameOf (url : String) : String :=
  jsOrStr (String.mk (removeFirstGit (lastSegChars url))) "repository"

/-- The six fixed progress lines streamed by the clone simulator. -/
def cloneProgressLines : List String :=
  ["remote: Enumerating objects: 23, done.",
   "remote: Counting objects: 100% (23/23), done.",
   "remote: Compressing objects: 100% (13/13), done.",
   "remote: Total 23 (delta 5), reused 20 (delta 5), pack-reused 0",
   "Receiving objects: 100% (23/23), 4.68 KiB | 4.68 MiB/s, done.",
   "Resolving deltas: 100% (5/5), done."]

/-- `currentOutput += '\n' + line` iterated over the progress lines. -/
def appendLines (init : String) (lines : List String) : String :=
  match lines with
  | [] => init
  | l :: rest => appendLines (init ++ "\n" ++ l) rest

/-- Final text of the streamed clone output entry after all progress lines
have been appended. -/
def cloneStreamText (repoName : String) : String :=
  appendLines ("Cloning into '" ++ repoName ++ "'...") cloneProgressLines

/-- The subtree materialized by `createClonedDirectory`. -/
def repoSubtree (repoName : String) : FSNode :=
  .directory
    [(".git", .directory []),
     ("README.md", .file ("# " ++ repoName ++ "\n\nA repository cloned with the simulator.")),
     ("src", .directory [("main.js", .file "console.log(\"Hello, World!\");")])]

/-- `createClonedDirectory(cwd, repoName)`: inserts the cloned subtree under
`cwd`; leaves the tree unchanged when `cwd` is not a directory or the name is
already taken. -/
def createClonedDirectory (root : FSNode) (cwd : String) (repoName : String) : FSNode :=
  match getNode root cwd with
  | some (.directory ch) =>
    if (childLookup ch repoName).isSome then root
    else updateAtSegs root (splitSegs cwd)
           (fun c => jsSetChild c repoName (repoSubtree repoName))
  | _ => root

/-- A session history entry. -/
inductive HistEntry where
  | command (text : String)
  | output (text : String)

/-- The `git clone` branch of `executeCommand`: the history entries it appends
(the streamed entry is reported with its final accumulated text — the
randomized delays only pace the streaming and never change the text) together
with the resulting tree. -/
def gitCloneCmd (root : FSNode) (cwd : String) (trimmedCommand : String) : List HistEntry × FSNode :=
  let repoUrl := (jsSplitWs trimmedCommand).getD 2 ""
  if repoUrl = "" then
    ([.output "fatal: You must specify a repository to clone."], root)
  else
    let repoName := repoNameOf repoUrl
    if (getNode root (cwd ++ "/" ++ repoName)).isSome then
      ([.output ("fatal: destination path '" ++ repoName ++
         "' already exists and is not an empty directory.")], root)
    else
      ([.output (cloneStreamText repoName)], createClonedDirectory root cwd repoName)

/-- The sixteen lowercase hexadecimal digits used for synthesized hashes
(the characters of the source's alphabet string `0123456789abcdef`). -/
def hexChars : List Char := "0123456789abcdef".data

/-- Whitespace test for the regex class `\s`. -/
def isWS (c : Char) : Bool := c.isWhitespace

/-- Try the pattern dash, `m`, one or more whitespace characters, then a
`q`-quoted non-empty run of non-`q` characters, at the head of the list.
The greedy repetitions need no backtracking because each repeated class
excludes the character that must follow it. -/
def tryQuoted (q : Char) (l : List Char) : Option (List Char) :=
  match l with
  | '-' :: 'm' :: rest =>
    match rest.takeWhile isWS, rest.drop (rest.takeWhile isWS).length with
    | [], _ => none
    | _ :: _, c :: r2 =>
      if c = q then
        match r2.takeWhile (fun d => d ≠ q),
              r2.drop (r2.takeWhile (fun d => d ≠ q)).length with
        | [], _ => none
        | m0 :: ms, c2 :: _ => if c2 = q then some (m0 :: ms) else none
        | _ :: _, [] => none
      else none
    | _ :: _, [] => none
  | _ => none

/-- Leftmost match of the commit-message pattern (double- or single-quoted):
at each position try the double-quoted alternative first, then the
single-quoted one, then advance one character. -/
def findCommitMsg : List Char → Option (List Char)
  | [] => none
  | c :: cs =>
    match tryQuoted '"' (c :: cs) with
    | some m => some m
    | none =>
      match tryQuoted '\'' (c :: cs) with
      | some m => some m
      | none => findCommitMsg cs

/-- `'0123456789abcdef'[k]` for an index already known to lie below 16. -/
def hexDigit (n : Nat) : Char := hexChars.getD (n % 16) '0'

/-- The `git commit` branch of `executeCommand`. Each draw
`Math.floor(Math.random() * k)` — an integer uniform in `[0, k)` — is
modelled by an arbitrary stream `r : Nat → Nat` reduced modulo `k`, which
ranges over exactly the same set of values. Indices 0–6 feed the seven hash
digits, index 7 the files-changed draw, index 8 the insertions draw. -/
def gitCommitCmd (trimmedCommand : String) (r : Nat → Nat) : String :=
  match findCommitMsg trimmedCommand.data with
  | none => "fatal: You must specify a commit message with -m \"<message>\""
  | some msgChars =>
    let message := String.mk msgChars
    if message = "" then "fatal: commit message is empty."
    else
      let commitHash := String.mk ((List.range 7).map (fun i => hexDigit (r i)))
      let filesChanged := r 7 % 3 + 1
      let insertions := r 8 % 20 + 1
      "[main " ++ commitHash ++ "] " ++ message ++ "\n " ++ toString filesChanged ++
        " file changed, " ++ toString insertions ++ " insertions(+)"

/-- Line-editor state while reverse search is active. -/
structure SearchState where
  input : String
  query : String
  cursor : Nat

/-- The scan loop of `performSearch`: indices `start - 1` down to `0`, first
command-log entry containing the query as a substring. -/
def findRev (log : List String) (q : String) : Nat → Option Nat
  | 0 => none
  | i + 1 => if containsSub q (log.getD i "") then some i else findRev log q i

/-- `performSearch(query, startIndex)` acting on the (input, cursor) pair: an
empty query clears the input; a hit rewrites both; a miss leaves both as they
were. -/
def psearch (log : List String) (q : String) (start : Nat) (inp : String) (cur : Nat) : String × Nat :=
  if q = "" then ("", cur)
  else
    match findRev log q start with
    | some j => (log.getD j "", j)
    | none => (inp, cur)

/-- Reverse-search mode, search trigger key pressed again: re-search starting
just before the current cursor. -/
def stepTrigger (log : List String) (s : SearchState) : SearchState :=
  let r := psearch log s.query s.cursor s.input s.cursor
  ⟨r.1, s.query, r.2⟩

/-- Reverse-search mode, printable character typed: extend the query, reset
the cursor to the command-log length, re-search from the newest entry. -/
def stepChar (log : List String) (c : Char) (s : SearchState) : SearchState :=
  let q := s.query ++ String.mk [c]
  let r := psearch log q log.length s.input log.length
  ⟨r.1, q, r.2⟩

/-- Reverse-search mode, backspace: shorten the query, reset the cursor to
the command-log length, re-search from the newest entry. -/
def stepBackspace (log : List String) (s : SearchState) : SearchState :=
  let q := jsDropLast s.query
  let r := psearch log q log.length s.input log.length
  ⟨r.1, q, r.2⟩

/-- The static tab-completion vocabulary. -/
def commands : List String :=
  ["ls", "pwd", "whoami", "neofetch", "apt update",
   "apt install", "ping", "help", "clear", "cd", "cat", "mkdir",
   "git status", "git log", "git clone", "git push", "git pull", "git branch",
   "git commit", "git diff", "git fetch",
   "termux-fix-shebang"]

/-- Effect of a Tab press in Normal mode. -/
inductive TabResult where
  | noop
  | complete (newInput : String)
  | suggest (echoed : String) (candidates : String)

/-- `matches.join('   ')` — the three-space join used for the candidate list. -/
def joinSp3 : List String → String
  | [] => ""
  | [s] => s
  | s :: t :: rest => s ++ "   " ++ joinSp3 (t :: rest)

/-- The Tab branch of `handleKeyDown` in Normal mode: exactly one vocabulary
entry starting with the trimmed input completes it (plus a trailing space);
several matches surface the candidate list; none, or an empty trimmed input,
do nothing. -/
def tabStep (input : String) : TabResult :=
  let trimmedInput := jsTrim input
  if trimmedInput = "" then .noop
  else
    match commands.filter (fun cmd => jsStartsWith cmd trimmedInput) with
    | [m] => .complete (m ++ " ")
    | [] => .noop
    | ms => .suggest input (joinSp3 ms)

/-- `handleAutocompleteSuggestions`: the history entries appended when Tab
surfaces multiple candidates (echo of the attempted input as a command line,
then the three-space-joined candidate list as an output line). -/
def histAfterTab (hist : List HistEntry) (input : String) : List HistEntry :=
  match tabStep input with
  | .suggest cmd sug => hist ++ [.command cmd, .output sug]
  | _ => hist

/-- Decomposition of a character list at the first occurrence of `.git`:
the text before it and the text after it. -/
def firstGitSplit : List Char → Option (List Char × List Char)
  | [] => none
  | c :: cs =>
    if isGitPrefix (c :: cs) then some ([], cs.drop 3)
    else (firstGitSplit cs).map (fun p => (c :: p.1, p.2))

/-- Repository-name trimming as claim C2 words it: strip a trailing `.git`
suffix only, leaving any earlier occurrence alone. -/
def claimStripTrailingGit (seg : String) : String :=
  if endsWithStr seg ".git" then
    String.mk (seg.data.take (seg.data.length - 4))
  else seg

/-- One step of path resolution as claim C6 words it (identical wording to
the source's loop: `.` no-op, `..` pops with silent clamping at root, other
segments pushed). -/
def claimStep (acc : List String) (s : String) : List String :=
  if s = "." then acc
  else if s = ".." then acc.dropLast
  else acc ++ [s]

/-- Path resolution exactly as claim C6 states it: split the expression on
slashes discarding empty segments, fold `claimStep` starting from the working
directory's segments, and serialize as `/` plus the slash-joined segments. -/
def claimResolve (cwd path : String) : String :=
  mkPath (List.foldl claimStep (splitSegs cwd) (splitSegs path))

/-- Whether an optional node is an existing directory. -/
def isDirOpt : Option FSNode → Bool
  | some (.directory _) => true
  | _ => false

/-- The segment list whose serialization `resolvePath` returns (the home
directory short-circuit corresponds to the segments `home`, `kali`). -/
def resolvedParts (cwd path : String) : List String :=
  if jsStartsWith path "/" then List.foldl stepSeg (baseSegs "/") (splitSegs path)
  else if path = "~" then ["home", "kali"]
  else List.foldl stepSeg (baseSegs cwd) (splitSegs path)

/-- A well-formed path segment: non-empty and slash-free. -/
def goodSeg (s : String) : Prop := s ≠ "" ∧ '/' ∉ s.data

/-- The last character of a string, seen from the reversed character list. -/
def revHead (s : String) : Option Char := s.data.reverse.head?

theorem sdata_append (s t : String) : (s ++ t).data = s.data ++ t.data := rfl

theorem mk_data (s : String) : String.mk s.data = s := rfl

theorem string_ext (s t : String) (h : s.data = t.data) : s = t := by
  cases s; cases t; cases h; rfl

theorem mk_ne_empty (l : List Char) (h : l ≠ []) : String.mk l ≠ "" := by
  intro he
  exact h (congrArg String.data he)

theorem ne_of_revHead (s t : String) (h : revHead s ≠ revHead t) : s ≠ t := by
  intro he; exact h (by rw [he])

theorem revHead_append (x y : String) (c : Char) (rest : List Char)
    (h : y.data.reverse = c :: rest) : revHead (x ++ y) = some c := by
  unfold revHead
  rw [sdata_append, List.reverse_append, h]
  rfl

theorem rawSplitSlash_ne_nil (l : List Char) : rawSplitSlash l ≠ [] := by
  cases l with
  | nil => simp [rawSplitSlash]
  | cons c cs =>
    simp only [rawSplitSlash]
    split
    · simp
    · split
      · simp
      · simp

theorem mem_rawSplitSlash_no_slash (l : List Char) (g : List Char)
    (hg : g ∈ rawSplitSlash l) : '/' ∉ g := by
  induction l generalizing g with
  | nil =>
    simp [rawSplitSlash] at hg
    simp [hg]
  | cons c cs ih =>
    simp only [rawSplitSlash] at hg
    by_cases hc : c = '/'
    · simp [hc] at hg
      rcases hg with hg | hg
      · simp [hg]
      · exact ih g hg
    · simp [hc] at hg
      rcases hsp : rawSplitSlash cs with _ | ⟨g0, gs⟩
      · exact absurd hsp (rawSplitSlash_ne_nil cs)
      · rw [hsp] at hg
        simp at hg
        rcases hg with hg | hg
        · have h0 : '/' ∉ g0 := ih g0 (by rw [hsp]; exact List.mem_cons_self g0 gs)
          rw [hg]
          simp [h0]
          exact fun he => hc he.symm
        · exact ih g (by rw [hsp]; exact List.mem_cons_of_mem g0 hg)

theorem rawSplitSlash_append (x y : List Char) :
    rawSplitSlash (x ++ '/' :: y) = rawSplitSlash x ++ rawSplitSlash y := by
  induction x with
  | nil => simp [rawSplitSlash]
  | cons c cs ih =>
    by_cases hc : c = '/'
    · simp only [List.cons_append, rawSplitSlash, if_pos hc, List.append_eq]
      rw [ih]
    · rcases hsp : rawSplitSlash cs with _ | ⟨g0, gs⟩
      · exact absurd hsp (rawSplitSlash_ne_nil cs)
      · simp only [List.cons_append, rawSplitSlash, if_neg hc, hsp, List.append_eq]
        rw [ih, hsp]
        simp

theorem rawSplitSlash_of_no_slash (l : List Char) (h : '/' ∉ l) :
    rawSplitSlash l = [l] := by
  induction l with
  | nil => rfl
  | cons c cs ih =>
    simp only [rawSplitSlash]
    have hc : c ≠ '/' := by intro he; exact h (by rw [he]; exact List.mem_cons_self _ _)
    have hcs : '/' ∉ cs := by intro hm; exact h (List.mem_cons_of_mem _ hm)
    rw [if_neg hc, ih hcs]

theorem splitSegs_good (s : String) (x : String) (hx : x ∈ splitSegs s) : goodSeg x := by
  unfold splitSegs at hx
  simp at hx
  rcases hx with ⟨g, ⟨hgmem, hgne⟩, hgx⟩
  constructor
  · rw [← hgx]; exact mk_ne_empty g hgne
  · rw [← hgx]
    exact mem_rawSplitSlash_no_slash s.data g hgmem

theorem foldl_stepSeg_good (segs : List String) (init : List String)
    (hinit : ∀ x ∈ init, goodSeg x) (hsegs : ∀ x ∈ segs, goodSeg x) :
    ∀ x ∈ List.foldl stepSeg init segs, goodSeg x := by
  induction segs generalizing init with
  | nil => exact hinit
  | cons s rest ih =>
    intro x hx
    refine ih (stepSeg init s) ?_ (fun y hy => hsegs y (List.mem_cons_of_mem s hy)) x hx
    intro y hy
    unfold stepSeg at hy
    split at hy
    · exact hinit y hy
    · split at hy
      · exact hinit y (List.mem_of_mem_dropLast hy)
      · rcases List.mem_append.mp hy with h | h
        · exact hinit y h
        · simp at h
          rw [h]
          exact hsegs s (List.mem_cons_self s rest)

theorem baseSegs_good (cwd : String) : ∀ x ∈ baseSegs cwd, goodSeg x := by
  intro x hx
  unfold baseSegs at hx
  split at hx
  · simp at hx
  · exact splitSegs_good cwd x hx

theorem resolvedParts_good (cwd path : String) :
    ∀ x ∈ resolvedParts cwd path, goodSeg x := by
  intro x hx
  unfold resolvedParts at hx
  split at hx
  · exact foldl_stepSeg_good _ _ (baseSegs_good "/") (splitSegs_good path) x hx
  · split at hx
    · simp at hx
      rcases hx with hx | hx <;> rw [hx] <;> constructor <;> decide
    · exact foldl_stepSeg_good _ _ (baseSegs_good cwd) (splitSegs_good path) x hx

theorem resolvePath_eq_mkPath (cwd path : String) :
    resolvePath cwd path = mkPath (resolvedParts cwd path) := by
  unfold resolvePath resolvedParts
  split
  · rfl
  · split
    · rfl
    · rfl

theorem joinSegs_concat (l : List String) (x : String) (hl : l ≠ []) :
    joinSegs (l ++ [x]) = joinSegs l ++ "/" ++ x := by
  induction l with
  | nil => exact absurd rfl hl
  | cons a rest ih =>
    cases rest with
    | nil => rfl
    | cons b r2 =>
      have : joinSegs ((b :: r2) ++ [x]) = joinSegs (b :: r2) ++ "/" ++ x := ih (by simp)
      show a ++ "/" ++ joinSegs ((b :: r2) ++ [x]) = a ++ "/" ++ joinSegs (b :: r2) ++ "/" ++ x
      rw [this]
      simp [String.append_assoc]

theorem segsOfData_join (parts : List String) (h : ∀ x ∈ parts, goodSeg x) :
    ((rawSplitSlash (joinSegs parts).data).filter (fun g => g ≠ [])).map
      (fun g => String.mk g) = parts := by
  induction parts with
  | nil => rfl
  | cons s rest ih =>
    cases rest with
    | nil =>
      have hs := h s (List.mem_cons_self s [])
      show ((rawSplitSlash s.data).filter (fun g => g ≠ [])).map (fun g => String.mk g) = [s]
      rw [rawSplitSlash_of_no_slash s.data hs.2]
      have hd : s.data ≠ [] := fun he => hs.1 (string_ext s "" he)
      simp [List.filter, hd, mk_data]
    | cons t r2 =>
      have hs := h s (List.mem_cons_self s (t :: r2))
      have hrest : ∀ x ∈ t :: r2, goodSeg x := fun x hx => h x (List.mem_cons_of_mem s hx)
      show ((rawSplitSlash (s ++ "/" ++ joinSegs (t :: r2)).data).filter
              (fun g => g ≠ [])).map (fun g => String.mk g) = s :: t :: r2
      have hdata : (s ++ "/" ++ joinSegs (t :: r2)).data
          = s.data ++ '/' :: (joinSegs (t :: r2)).data := by
        rw [sdata_append, sdata_append]
        simp
      rw [hdata, rawSplitSlash_append, rawSplitSlash_of_no_slash s.data hs.2]
      have hd : s.data ≠ [] := fun he => hs.1 (string_ext s "" he)
      rw [List.filter_append, List.map_append]
      rw [ih hrest]
      simp [List.filter, hd, mk_data]

theorem segs_mkPath (parts : List String) (h : ∀ x ∈ parts, goodSeg x) :
    splitSegs (mkPath parts) = parts := by
  unfold splitSegs mkPath
  have hdata : ("/" ++ joinSegs parts).data = '/' :: (joinSegs parts).data := rfl
  rw [hdata]
  have : rawSplitSlash ('/' :: (joinSegs parts).data)
      = [] :: rawSplitSlash (joinSegs parts).data := by
    simp [rawSplitSlash]
  rw [this]
  have : ([] :: rawSplitSlash (joinSegs parts).data).filter (fun g => g ≠ [])
      = (rawSplitSlash (joinSegs parts).data).filter (fun g => g ≠ []) := by
    simp [List.filter]
  rw [this]
  exact segsOfData_join parts h

theorem takeWhile_append_stop (p : Char → Bool) (xs : List Char) (c : Char) (ys : List Char)
    (hxs : ∀ a ∈ xs, p a = true) (hc : p c = false) :
    (xs ++ c :: ys).takeWhile p = xs := by
  induction xs with
  | nil => simp [List.takeWhile, hc]
  | cons a rest ih =>
    have ha : p a = true := hxs a (List.mem_cons_self a rest)
    rw [List.cons_append, List.takeWhile_cons, ha]
    simp only [if_true]
    rw [ih (fun b hb => hxs b (List.mem_cons_of_mem a hb))]

theorem dropWhile_append_stop (p : Char → Bool) (xs : List Char) (c : Char) (ys : List Char)
    (hxs : ∀ a ∈ xs, p a = true) (hc : p c = false) :
    (xs ++ c :: ys).dropWhile p = c :: ys := by
  induction xs with
  | nil => simp [List.dropWhile, hc]
  | cons a rest ih =>
    have ha : p a = true := hxs a (List.mem_cons_self a rest)
    rw [List.cons_append, List.dropWhile_cons, ha]
    simp only [if_true]
    exact ih (fun b hb => hxs b (List.mem_cons_of_mem a hb))

theorem mkPath_data_concat (l : List String) (x : String) :
    (mkPath (l ++ [x])).data = (mkPath l).data ++ '/' :: x.data
    ∨ (l = [] ∧ (mkPath [x]).data = '/' :: x.data) := by
  cases hl : l with
  | nil => exact Or.inr ⟨rfl, rfl⟩
  | cons a rest =>
    left
    unfold mkPath
    rw [joinSegs_concat (a :: rest) x (by simp)]
    rw [sdata_append, sdata_append, sdata_append, sdata_append]
    simp

theorem no_slash_rev_all (x : List Char) (hx : '/' ∉ x) :
    ∀ a ∈ x.reverse, (fun c => decide (c ≠ '/')) a = true := by
  intro a ha
  have hmem : a ∈ x := List.mem_reverse.mp ha
  simp
  intro he
  rw [he] at hmem
  exact hx hmem

theorem afterLast_data (d : List Char) (x : List Char) (hx : '/' ∉ x) :
    ((d ++ '/' :: x).reverse.takeWhile (fun c => c ≠ '/')).reverse = x := by
  rw [List.reverse_append, List.reverse_cons, List.append_assoc, List.singleton_append]
  rw [takeWhile_append_stop _ _ _ _ (no_slash_rev_all x hx) (by simp)]
  exact List.reverse_reverse x

theorem beforeLast_data (d : List Char) (x : List Char) (hx : '/' ∉ x) :
    (((d ++ '/' :: x).reverse.dropWhile (fun c => c ≠ '/')).drop 1).reverse = d := by
  rw [List.reverse_append, List.reverse_cons, List.append_assoc, List.singleton_append]
  rw [dropWhile_append_stop _ _ _ _ (no_slash_rev_all x hx) (by simp)]
  simp

theorem afterLast_mkPath (parts : List String) (h : ∀ x ∈ parts, goodSeg x)
    (hne : parts ≠ []) :
    afterLastSlashStr (mkPath parts) = parts.getLast hne := by
  have hsplit := List.dropLast_append_getLast hne
  set x := parts.getLast hne with hx
  have hgx : goodSeg x := h x (List.getLast_mem hne)
  unfold afterLastSlashStr
  rcases mkPath_data_concat parts.dropLast x with hcat | ⟨hnil, hcat⟩
  · rw [hsplit] at hcat
    rw [hcat, afterLast_data _ _ hgx.2, mk_data]
  · have hparts : parts = [x] := by rw [← hsplit, hnil]; rfl
    rw [hparts, hcat]
    have : ('/' :: x.data) = [] ++ '/' :: x.data := rfl
    rw [this, afterLast_data [] x.data hgx.2, mk_data]

theorem beforeLast_mkPath (parts : List String) (h : ∀ x ∈ parts, goodSeg x)
    (hne : parts ≠ []) :
    jsOrStr (beforeLastSlashStr (mkPath parts)) "/" = mkPath parts.dropLast := by
  have hsplit := List.dropLast_append_getLast hne
  set x := parts.getLast hne with hx
  have hgx : goodSeg x := h x (List.getLast_mem hne)
  unfold beforeLastSlashStr
  rcases mkPath_data_concat parts.dropLast x with hcat | ⟨hnil, hcat⟩
  · rw [hsplit] at hcat
    rw [hcat, beforeLast_data _ _ hgx.2, mk_data]
    unfold jsOrStr
    rw [if_neg]
    intro he
    have : (mkPath parts.dropLast).data = [] := congrArg String.data he
    unfold mkPath at this
    simp [sdata_append] at this
  · have hparts : parts = [x] := by rw [← hsplit, hnil]; rfl
    rw [hparts, hcat]
    have h0 : ('/' :: x.data) = [] ++ '/' :: x.data := rfl
    rw [h0, beforeLast_data [] x.data hgx.2]
    rfl

theorem getNode_root_slash (root : FSNode) : getNode root "/" = some root := by
  cases root <;> rfl

theorem lookupSegs_append (a b : List String) (t : FSNode) :
    lookupSegs t (a ++ b) = (lookupSegs t a).bind (fun n => lookupSegs n b) := by
  induction a generalizing t with
  | nil => simp [lookupSegs]
  | cons s rest ih =>
    cases t with
    | file c => simp [lookupSegs]
    | directory ch =>
      simp only [List.cons_append, lookupSegs]
      cases hc : childLookup ch s with
      | none => simp
      | some child => simp [ih child]

theorem childLookup_map_update (ch : List (String × FSNode)) (s : String)
    (g : FSNode → FSNode) :
    childLookup (ch.map (fun kv => if kv.1 = s then (kv.1, g kv.2) else kv)) s
      = (childLookup ch s).map g := by
  induction ch with
  | nil => rfl
  | cons kv rest ih =>
    cases kv with
    | mk k v =>
      rw [List.map_cons]
      by_cases hk : k = s
      · subst hk
        simp only [if_pos rfl]
        simp [childLookup]
      · simp only [if_neg hk]
        simp [childLookup, hk, ih]

theorem lookupSegs_update (segs : List String) (t : FSNode) (ch : List (String × FSNode))
    (f : List (String × FSNode) → List (String × FSNode))
    (h : lookupSegs t segs = some (.directory ch)) :
    lookupSegs (updateAtSegs t segs f) segs = some (.directory (f ch)) := by
  induction segs generalizing t with
  | nil =>
    cases t with
    | file c =>
      have h' : some (FSNode.file c) = some (FSNode.directory ch) := h
      injection h' with h2
      exact FSNode.noConfusion h2
    | directory ch0 =>
      have h' : some (FSNode.directory ch0) = some (FSNode.directory ch) := h
      injection h' with h2
      injection h2 with h3
      show some (FSNode.directory (f ch0)) = some (FSNode.directory (f ch))
      rw [h3]
  | cons s rest ih =>
    cases t with
    | file c =>
      have h' : (none : Option FSNode) = some (.directory ch) := h
      exact Option.noConfusion h'
    | directory ch0 =>
      have h' : (match childLookup ch0 s with
                 | none => none
                 | some child => lookupSegs child rest) = some (.directory ch) := h
      cases hc : childLookup ch0 s with
      | none =>
        rw [hc] at h'
        exact Option.noConfusion h'
      | some child =>
        rw [hc] at h'
        simp only at h'
        show lookupSegs (.directory (ch0.map _)) (s :: rest) = _
        show (match childLookup (ch0.map
            (fun kv => if kv.1 = s then (kv.1, updateAtSegs kv.2 rest f) else kv)) s with
          | none => none
          | some child => lookupSegs child rest) = some (.directory (f ch))
        rw [childLookup_map_update ch0 s (fun v => updateAtSegs v rest f), hc]
        simp only [Option.map_some']
        exact ih child h'

theorem childLookup_jsSetChild_self (ch : List (String × FSNode)) (n : String) (v : FSNode) :
    childLookup (jsSetChild ch n v) n = some v := by
  induction ch with
  | nil => simp [jsSetChild, childLookup]
  | cons kv rest ih =>
    cases kv with
    | mk k w =>
      by_cases hk : k = n
      · simp [jsSetChild, childLookup, hk]
      · simp [jsSetChild, childLookup, hk, ih]

theorem mem_dropLast {α : Type} (l : List α) (x : α) (hx : x ∈ l.dropLast) : x ∈ l := by
  induction l with
  | nil => simp at hx
  | cons a rest ih =>
    cases rest with
    | nil => simp at hx
    | cons b r2 =>
      rw [List.dropLast_cons₂] at hx
      rcases List.mem_cons.mp hx with h | h
      · rw [h]; exact List.mem_cons_self _ _
      · exact List.mem_cons_of_mem a (ih h)

theorem splitSegs_append_seg (x y : String) (hy : goodSeg y) :
    splitSegs (x ++ "/" ++ y) = splitSegs x ++ [y] := by
  unfold splitSegs
  have hdata : (x ++ "/" ++ y).data = x.data ++ '/' :: y.data := by
    rw [sdata_append, sdata_append]
    simp
  rw [hdata, rawSplitSlash_append, rawSplitSlash_of_no_slash y.data hy.2]
  rw [List.filter_append, List.map_append]
  have hd : y.data ≠ [] := fun he => hy.1 (string_ext y "" he)
  simp [List.filter, hd, mk_data]

theorem tryQuoted_ne_nil (q : Char) (l : List Char) (m : List Char)
    (h : tryQuoted q l = some m) : m ≠ [] := by
  unfold tryQuoted at h
  repeat' split at h
  all_goals first
    | exact Option.noConfusion h
    | (injection h with h2; rw [← h2]; simp)

theorem findCommitMsg_ne_nil (l : List Char) (m : List Char)
    (h : findCommitMsg l = some m) : m ≠ [] := by
  induction l with
  | nil => exact Option.noConfusion h
  | cons c cs ih =>
    unfold findCommitMsg at h
    split at h
    · next m0 hm0 =>
        injection h with h2
        rw [← h2]
        exact tryQuoted_ne_nil _ _ _ hm0
    · split at h
      · next m0 hm0 =>
          injection h with h2
          rw [← h2]
          exact tryQuoted_ne_nil _ _ _ hm0
      · exact ih h

theorem isGitPrefix_eq_true (c : Char) (cs : List Char) (h : isGitPrefix (c :: cs) = true) :
    c :: cs = '.' :: 'g' :: 'i' :: 't' :: cs.drop 3 := by
  unfold isGitPrefix at h
  have hpre : ['.', 'g', 'i', 't'] <+: c :: cs := by
    rw [← List.isPrefixOf_iff_prefix]
    exact h
  rcases hpre with ⟨t, ht⟩
  have ht' : '.' :: 'g' :: 'i' :: 't' :: t = c :: cs := ht
  injection ht' with h1 h2
  rw [← h1, ← h2]
  rfl

theorem isGitPrefix_eq_false (l : List Char) (h : isGitPrefix l = false) :
    ∀ b : List Char, l ≠ '.' :: 'g' :: 'i' :: 't' :: b := by
  intro b he
  rw [he] at h
  have : isGitPrefix ('.' :: 'g' :: 'i' :: 't' :: b) = true := by
    unfold isGitPrefix
    rw [List.isPrefixOf_iff_prefix]
    exact ⟨b, rfl⟩
  rw [this] at h
  exact Bool.noConfusion h

theorem firstGitSplit_some (l : List Char) :
    ∀ a b, firstGitSplit l = some (a, b) →
      l = a ++ '.' :: 'g' :: 'i' :: 't' :: b
      ∧ removeFirstGit l = a ++ b
      ∧ ∀ a' b', l = a' ++ '.' :: 'g' :: 'i' :: 't' :: b' → a.length ≤ a'.length := by
  induction l with
  | nil => intro a b h; exact Option.noConfusion h
  | cons c cs ih =>
    intro a b h
    unfold firstGitSplit at h
    by_cases hg : isGitPrefix (c :: cs) = true
    · rw [if_pos hg] at h
      injection h with h2
      have ha : a = [] := (Prod.mk.injEq _ _ _ _ ▸ h2).1.symm
      have hb : b = cs.drop 3 := (Prod.mk.injEq _ _ _ _ ▸ h2).2.symm
      subst ha; subst hb
      refine ⟨by simpa using isGitPrefix_eq_true c cs hg, ?_, ?_⟩
      · unfold removeFirstGit
        rw [if_pos hg]
        rfl
      · intro a' b' _; simp
    · rw [if_neg hg] at h
      cases hfs : firstGitSplit cs with
      | none => rw [hfs] at h; exact Option.noConfusion h
      | some p =>
        rw [hfs] at h
        cases p with
        | mk a0 b0 =>
          simp only [Option.map_some'] at h
          injection h with h2
          have ha : a = c :: a0 := (Prod.mk.injEq _ _ _ _ ▸ h2).1.symm
          have hb : b = b0 := (Prod.mk.injEq _ _ _ _ ▸ h2).2.symm
          subst ha; subst hb
          obtain ⟨hdec, hrem, hmin⟩ := ih a0 b hfs
          refine ⟨by rw [List.cons_append]; rw [← hdec], ?_, ?_⟩
          · unfold removeFirstGit
            rw [if_neg hg, hrem]
            rfl
          · intro a' b' he
            cases a' with
            | nil =>
              exact absurd he (isGitPrefix_eq_false (c :: cs)
                (Bool.not_eq_true _ ▸ hg) b')
            | cons c' a'' =>
              rw [List.cons_append] at he
              injection he with h1 h2
              have := hmin a'' b' h2
              simp only [List.length_cons]
              omega

theorem firstGitSplit_none (l : List Char) (h : firstGitSplit l = none) :
    removeFirstGit l = l := by
  induction l with
  | nil => rfl
  | cons c cs ih =>
    unfold firstGitSplit at h
    by_cases hg : isGitPrefix (c :: cs) = true
    · rw [if_pos hg] at h; exact Option.noConfusion h
    · rw [if_neg hg] at h
      unfold removeFirstGit
      rw [if_neg hg]
      cases hfs : firstGitSplit cs with
      | none => rw [ih hfs]
      | some p => rw [hfs] at h; exact Option.noConfusion h

theorem hasArg_append_cons (pre : List String) (a : String) (post : List String) :
    hasArg (pre ++ a :: post) a = true := by
  induction pre with
  | nil => simp [hasArg]
  | cons x xs ih =>
    rw [List.cons_append]
    unfold hasArg
    split
    · rfl
    · exact ih

theorem findRev_some (log : List String) (q : String) (start : Nat) (j : Nat)
    (h : findRev log q start = some j) :
    j < start ∧ containsSub q (log.getD j "") = true
    ∧ ∀ k, j < k → k < start → containsSub q (log.getD k "") = false := by
  induction start with
  | zero => exact Option.noConfusion h
  | succ i ih =>
    unfold findRev at h
    by_cases hc : containsSub q (log.getD i "") = true
    · rw [if_pos hc] at h
      injection h with h2
      subst h2
      exact ⟨Nat.lt_succ_self i, hc, fun k hk1 hk2 => absurd hk1 (by omega)⟩
    · rw [if_neg hc] at h
      obtain ⟨h1, h2, h3⟩ := ih h
      refine ⟨Nat.lt_succ_of_lt h1, h2, ?_⟩
      intro k hk1 hk2
      by_cases hk3 : k < i
      · exact h3 k hk1 hk3
      · have hki : k = i := by omega
        rw [hki]
        simp only [Bool.not_eq_true] at hc
        exact hc

theorem revHead_append_right (x y : String) (hy : y.data ≠ []) :
    revHead (x ++ y) = revHead y := by
  unfold revHead
  rw [sdata_append, List.reverse_append]
  cases hy2 : y.data.reverse with
  | nil =>
    exact absurd (by simpa using congrArg List.reverse hy2) hy
  | cons c rest => simp

/-- C1: the spec says `termux-fix-shebang` replaces exactly the first line of
a file whose first line starts with `#!` and preserves every subsequent line.
The code splits the content with `content.split('\\n')` — the literal
two-character sequence backslash-`n`, not a newline — so on a real two-line
script the whole content counts as the "first line": the rewrite deletes
everything after the shebang. Evaluating the embedded command at the failing
input shows the second line `echo hi` is destroyed, while the spec-mandated
result would keep it. -/
theorem C1_shebang_failing :
    termuxCmd (.directory [("script.sh", .file "#!/bin/sh\necho hi")]) "/" ["script.sh"]
      = ("shebang of script.sh has been rewritten from '#!/bin/sh\necho hi' to '#!/data/data/com.termux/files/usr/bin/python3'",
         .directory [("script.sh", .file "#!/data/data/com.termux/files/usr/bin/python3")])
    ∧ ("#!/data/data/com.termux/files/usr/bin/python3" : String)
        ≠ "#!/data/data/com.termux/files/usr/bin/python3\necho hi" :=
  ⟨rfl, by decide⟩

/-- C6 counterexample: the claim says every path expression is resolved by
splitting on slashes and pushing every non-`.`/`..` segment, but the exact
expression `~` short-circuits to `/home/kali` instead of being pushed
(the claimed algorithm would give `/~` from the root). -/
theorem C6_resolve_cex :
    resolvePath "/" "~" = "/home/kali"
    ∧ claimResolve "/" "~" = "/~"
    ∧ ("/home/kali" : String) ≠ "/~" :=
  ⟨by decide, by decide, by decide⟩

/-- C6 amended: path resolution follows the claimed split/fold/serialize
algorithm, except that an expression starting with `/` folds from the empty
(root) base instead of the working directory's segments, and the exact
expression `~` resolves directly to `/home/kali`. -/
theorem C6_resolve_amended (cwd path : String) :
    resolvePath cwd path =
      if jsStartsWith path "/" then claimResolve "/" path
      else if path = "~" then "/home/kali"
      else claimResolve cwd path := by
  have hbase : ∀ c : String, baseSegs c = splitSegs c := by
    intro c
    unfold baseSegs
    split
    · next hc => rw [hc]; rfl
    · rfl
  have hstep : stepSeg = claimStep := rfl
  unfold resolvePath claimResolve
  split
  · rw [hbase, hstep]
  · split
    · rfl
    · rw [hbase, hstep]

/-- C10: the `ls` built-in always lists the current working directory; every
operand other than the literal `-a` is ignored (and `-a` is recognized at any
argument position), so the output depends on the argument list only through
membership of `-a`. -/
theorem C10_ls (root : FSNode) (cwd : String) (args : List String) :
    lsCmd root cwd args = lsCmd root cwd (if hasArg args "-a" then ["-a"] else [])
    ∧ ∀ pre post, lsCmd root cwd (pre ++ "-a" :: post) = lsCmd root cwd ["-a"] := by
  have key : ∀ as1 as2 : List String, hasArg as1 "-a" = hasArg as2 "-a" →
      lsCmd root cwd as1 = lsCmd root cwd as2 := by
    intro as1 as2 he
    unfold lsCmd
    cases hn : getNode root cwd with
    | none => rfl
    | some node =>
      cases node with
      | file c => rfl
      | directory ch => rw [he]
  constructor
  · refine key _ _ ?_
    cases h : hasArg args "-a"
    · rw [if_neg (by simp [h])]
      rfl
    · rw [if_pos (by simp [h])]
      rfl
  · intro pre post
    refine key _ _ ?_
    rw [hasArg_append_cons pre "-a" post]
    decide

theorem cdCmd_eval (root : FSNode) (cwd : String) (args : List String) :
    cdCmd root cwd args =
      if isDirOpt (getNode root (resolvePath cwd (jsOrStr (args.headD "") "/home/kali"))) = true
      then ("", resolvePath cwd (jsOrStr (args.headD "") "/home/kali"))
      else ("cd: no such file or directory: " ++ jsOrStr (args.headD "") "/home/kali", cwd) := by
  simp only [cdCmd]
  cases hn : getNode root (resolvePath cwd (jsOrStr (args.headD "") "/home/kali")) with
  | none => simp [isDirOpt]
  | some node =>
    cases node with
    | file c => simp [isDirOpt]
    | directory ch => simp [isDirOpt]

/-- C4: a failing `cd` leaves the working directory unchanged and produces
exactly `cd: no such file or directory: <target>`; repeating the same failing
`cd` gives the identical message with the directory still unchanged; with no
argument the target defaults to `/home/kali`; on success the working
directory is updated and the output is empty. -/
theorem C4_cd (root : FSNode) (cwd : String) (args : List String) :
    (isDirOpt (getNode root (resolvePath cwd (jsOrStr (args.headD "") "/home/kali"))) = true →
        cdCmd root cwd args = ("", resolvePath cwd (jsOrStr (args.headD "") "/home/kali")))
    ∧ (isDirOpt (getNode root (resolvePath cwd (jsOrStr (args.headD "") "/home/kali"))) = false →
        cdCmd root cwd args
          = ("cd: no such file or directory: " ++ jsOrStr (args.headD "") "/home/kali", cwd)
        ∧ cdCmd root (cdCmd root cwd args).2 args = cdCmd root cwd args)
    ∧ cdCmd root cwd [] = cdCmd root cwd ["/home/kali"] := by
  have he := cdCmd_eval root cwd args
  refine ⟨?_, ?_, ?_⟩
  · intro h
    rw [he, if_pos h]
  · intro h
    have h1 : cdCmd root cwd args
        = ("cd: no such file or directory: " ++ jsOrStr (args.headD "") "/home/kali", cwd) := by
      rw [he, if_neg (by rw [h]; simp)]
    refine ⟨h1, ?_⟩
    rw [h1]
    exact h1
  · have harg : jsOrStr (([] : List String).headD "") "/home/kali"
        = jsOrStr ((["/home/kali"] : List String).headD "") "/home/kali" := by decide
    simp only [cdCmd]
    rw [harg]

/-- C4 witness: a concrete failing `cd nope` from `/` in a small tree. -/
theorem C4_cd_witness :
    cdCmd (.directory [("home", .directory [])]) "/" ["nope"]
      = ("cd: no such file or directory: nope", "/")
    ∧ cdCmd (.directory [("home", .directory [])])
        (cdCmd (.directory [("home", .directory [])]) "/" ["nope"]).2 ["nope"]
      = cdCmd (.directory [("home", .directory [])]) "/" ["nope"] :=
  (C4_cd (.directory [("home", .directory [])]) "/" ["nope"]).2.1 (by decide)

/-- C9: Tab in Normal mode on a non-empty trimmed input: a unique vocabulary
match replaces the input with the match plus a trailing space; several
matches leave the input alone and append a command entry echoing the
attempted input plus an output entry with the (three-)space-joined candidate
list, without executing anything; no match does nothing; an empty trimmed
input does nothing. -/
theorem C9_tab (input : String) (hist : List HistEntry) :
    (jsTrim input = "" → tabStep input = TabResult.noop ∧ histAfterTab hist input = hist)
    ∧ (∀ m, jsTrim input ≠ "" →
        commands.filter (fun cmd => jsStartsWith cmd (jsTrim input)) = [m] →
        tabStep input = TabResult.complete (m ++ " ") ∧ histAfterTab hist input = hist)
    ∧ (∀ m₁ m₂ ms, jsTrim input ≠ "" →
        commands.filter (fun cmd => jsStartsWith cmd (jsTrim input)) = m₁ :: m₂ :: ms →
        tabStep input = TabResult.suggest input (joinSp3 (m₁ :: m₂ :: ms))
        ∧ histAfterTab hist input
            = hist ++ [HistEntry.command input, HistEntry.output (joinSp3 (m₁ :: m₂ :: ms))])
    ∧ (jsTrim input ≠ "" →
        commands.filter (fun cmd => jsStartsWith cmd (jsTrim input)) = [] →
        tabStep input = TabResult.noop ∧ histAfterTab hist input = hist) := by
  refine ⟨?_, ?_, ?_, ?_⟩
  · intro h
    have ht : tabStep input = TabResult.noop := by
      simp only [tabStep]
      rw [if_pos h]
    exact ⟨ht, by simp [histAfterTab, ht]⟩
  · intro m h hf
    have ht : tabStep input = TabResult.complete (m ++ " ") := by
      simp only [tabStep]
      rw [if_neg h, hf]
    exact ⟨ht, by simp [histAfterTab, ht]⟩
  · intro m₁ m₂ ms h hf
    have ht : tabStep input = TabResult.suggest input (joinSp3 (m₁ :: m₂ :: ms)) := by
      simp only [tabStep]
      rw [if_neg h, hf]
    exact ⟨ht, by simp [histAfterTab, ht]⟩
  · intro h hf
    have ht : tabStep input = TabResult.noop := by
      simp only [tabStep]
      rw [if_neg h, hf]
    exact ⟨ht, by simp [histAfterTab, ht]⟩

/-- C9 witness: `pw` has the unique match `pwd` and completes to `pwd `. -/
theorem C9_tab_witness :
    tabStep "pw" = TabResult.complete ("pwd" ++ " ") ∧ histAfterTab [] "pw" = [] :=
  (C9_tab "pw" []).2.1 "pwd" (by decide) (by decide)

/-- C7: in reverse-search mode the search scans the command log from
`cursor - 1` down to `0`; the first (greatest-index) entry containing the
query becomes the new input and cursor; on a miss both are left unchanged
(sticky last match); an empty query clears the input without searching;
typing a character or backspacing resets the cursor to the log length before
re-searching, while the trigger key re-searches just before the cursor. -/
theorem C7_search (log : List String) (q inp : String) (cur start : Nat) (c : Char) :
    (∀ j, findRev log q start = some j →
        j < start ∧ containsSub q (log.getD j "") = true
        ∧ (∀ k, j < k → k < start → containsSub q (log.getD k "") = false)
        ∧ (q ≠ "" → psearch log q start inp cur = (log.getD j "", j)))
    ∧ (q ≠ "" → findRev log q start = none → psearch log q start inp cur = (inp, cur))
    ∧ psearch log "" start inp cur = ("", cur)
    ∧ stepChar log c ⟨inp, q, cur⟩
        = ⟨(psearch log (q ++ String.mk [c]) log.length inp log.length).1, q ++ String.mk [c],
           (psearch log (q ++ String.mk [c]) log.length inp log.length).2⟩
    ∧ stepBackspace log ⟨inp, q, cur⟩
        = ⟨(psearch log (jsDropLast q) log.length inp log.length).1, jsDropLast q,
           (psearch log (jsDropLast q) log.length inp log.length).2⟩
    ∧ stepTrigger log ⟨inp, q, cur⟩
        = ⟨(psearch log q cur inp cur).1, q, (psearch log q cur inp cur).2⟩ := by
  refine ⟨?_, ?_, ?_, rfl, rfl, rfl⟩
  · intro j hj
    obtain ⟨h1, h2, h3⟩ := findRev_some log q start j hj
    refine ⟨h1, h2, h3, ?_⟩
    intro hq
    unfold psearch
    rw [if_neg hq, hj]
  · intro hq hnone
    unfold psearch
    rw [if_neg hq, hnone]
  · unfold psearch
    rw [if_pos rfl]

/-- C7 witness: the spec's own example — searching `l` in
`["ls", "cat a.txt", "ls -a"]` from cursor 3 lands on `ls -a` at index 2. -/
theorem C7_search_witness :
    psearch ["ls", "cat a.txt", "ls -a"] "l" 3 "" 0 = ("ls -a", 2) :=
  (((C7_search ["ls", "cat a.txt", "ls -a"] "l" "" 0 3 'x').1 2 (by decide)).2.2.2) (by decide)

/-- C5: whenever the commit-message pattern (`-m` plus a double- or
single-quoted non-empty message) matches the command, the output is the
commit summary with a seven-character hash drawn from the lowercase
hexadecimal alphabet, a files-changed count in `[1, 3]` and an insertions
count in `[1, 20]`; when the pattern does not match, the output is exactly
the missing-message fatal error. The random draws are an arbitrary stream. -/
theorem C5_commit (s : String) (r : Nat → Nat) :
    (∀ m, findCommitMsg s.data = some m →
        ∃ hash files ins,
          gitCommitCmd s r
            = "[main " ++ hash ++ "] " ++ String.mk m ++ "\n " ++ toString files ++
              " file changed, " ++ toString ins ++ " insertions(+)"
          ∧ hash.length = 7
          ∧ (∀ d ∈ hash.data, d ∈ hexChars)
          ∧ 1 ≤ files ∧ files ≤ 3 ∧ 1 ≤ ins ∧ ins ≤ 20)
    ∧ (findCommitMsg s.data = none →
        gitCommitCmd s r = "fatal: You must specify a commit message with -m \"<message>\"") := by
  constructor
  · intro m hm
    have hne : m ≠ [] := findCommitMsg_ne_nil s.data m hm
    have hmsg : String.mk m ≠ "" := mk_ne_empty m hne
    refine ⟨String.mk ((List.range 7).map (fun i => hexDigit (r i))),
      r 7 % 3 + 1, r 8 % 20 + 1, ?_, ?_, ?_, ?_, ?_, ?_, ?_⟩
    · simp only [gitCommitCmd]
      rw [hm]
      simp only
      rw [if_neg hmsg]
    · show ((List.range 7).map (fun i => hexDigit (r i))).length = 7
      simp
    · intro d hd
      have hd' : d ∈ (List.range 7).map (fun i => hexDigit (r i)) := hd
      rcases List.mem_map.mp hd' with ⟨i, _, hdig⟩
      rw [← hdig]
      unfold hexDigit
      have h16 : r i % 16 < hexChars.length := by
        have h1 : r i % 16 < 16 := Nat.mod_lt _ (by norm_num)
        have h2 : hexChars.length = 16 := by decide
        omega
      rw [List.getD_eq_getElem hexChars '0' h16]
      exact List.getElem_mem h16
    · omega
    · omega
    · omega
    · omega
  · intro hm
    simp only [gitCommitCmd]
    rw [hm]

/-- C5 witness: `git commit -m "fix bug"` with the all-zero random stream. -/
theorem C5_commit_witness :
    ∃ hash files ins,
      gitCommitCmd "git commit -m \"fix bug\"" (fun _ => 0)
        = "[main " ++ hash ++ "] " ++ String.mk "fix bug".data ++ "\n " ++ toString files ++
          " file changed, " ++ toString ins ++ " insertions(+)"
      ∧ hash.length = 7
      ∧ (∀ d ∈ hash.data, d ∈ hexChars)
      ∧ 1 ≤ files ∧ files ≤ 3 ∧ 1 ≤ ins ∧ ins ≤ 20 :=
  (C5_commit "git commit -m \"fix bug\"" (fun _ => 0)).1 "fix bug".data (by decide)

/-- C2 counterexample: the claim says the repository name strips only a
trailing `.git` and never touches a `.git` occurring elsewhere in the last
URL segment, but JavaScript `replace('.git', '')` removes the FIRST
occurrence: for `https://h/a.gitb.git` the code produces `ab.git` while the
claimed rule produces `a.gitb`. -/
theorem C2_clone_cex :
    repoNameOf "https://h/a.gitb.git" = "ab.git"
    ∧ claimStripTrailingGit (String.mk (lastSegChars "https://h/a.gitb.git")) = "a.gitb"
    ∧ ("ab.git" : String) ≠ "a.gitb" :=
  ⟨by decide, by decide, by decide⟩

/-- C2 amended: the repository name is the URL's last slash-separated segment
with the FIRST occurrence of `.git` removed (when `.git` occurs nowhere the
segment is kept; the fixed fallback `repository` replaces an empty result),
and when a node already exists at `cwd/repoName` the clone reports the fatal
already-exists message and leaves the tree completely unchanged. -/
theorem C2_clone_amended (url : String) :
    (∀ a b, firstGitSplit (lastSegChars url) = some (a, b) →
        repoNameOf url = jsOrStr (String.mk (a ++ b)) "repository"
        ∧ lastSegChars url = a ++ '.' :: 'g' :: 'i' :: 't' :: b
        ∧ (∀ a' b', lastSegChars url = a' ++ '.' :: 'g' :: 'i' :: 't' :: b' →
            a.length ≤ a'.length))
    ∧ (firstGitSplit (lastSegChars url) = none →
        repoNameOf url = jsOrStr (String.mk (lastSegChars url)) "repository")
    ∧ (∀ root cwd cmd, (jsSplitWs cmd).getD 2 "" = url → url ≠ "" →
        (getNode root (cwd ++ "/" ++ repoNameOf url)).isSome = true →
        gitCloneCmd root cwd cmd
          = ([HistEntry.output ("fatal: destination path '" ++ repoNameOf url ++
              "' already exists and is not an empty directory.")], root)) := by
  refine ⟨?_, ?_, ?_⟩
  · intro a b hfs
    obtain ⟨hdec, hrem, hmin⟩ := firstGitSplit_some (lastSegChars url) a b hfs
    refine ⟨?_, hdec, hmin⟩
    unfold repoNameOf
    rw [hrem]
  · intro hfs
    unfold repoNameOf
    rw [firstGitSplit_none _ hfs]
  · intro root cwd cmd htok hne hsome
    simp only [gitCloneCmd]
    rw [htok, if_neg hne, if_pos hsome]

/-- C2 witness: for the well-behaved URL `https://example.com/sample.git` the
first `.git` occurrence is the trailing one and the derived name is the
segment before it. -/
theorem C2_clone_witness :
    repoNameOf "https://example.com/sample.git"
        = jsOrStr (String.mk ("sample".data ++ [])) "repository"
    ∧ lastSegChars "https://example.com/sample.git"
        = "sample".data ++ '.' :: 'g' :: 'i' :: 't' :: []
    ∧ (∀ a' b', lastSegChars "https://example.com/sample.git"
          = a' ++ '.' :: 'g' :: 'i' :: 't' :: b' → ("sample".data).length ≤ a'.length) :=
  (C2_clone_amended "https://example.com/sample.git").1 "sample".data [] (by decide)

theorem lookup_after_create (root : FSNode) (parts rest : List String) (name : String)
    (ch : List (String × FSNode)) (v : FSNode)
    (hparent : lookupSegs root parts = some (.directory ch))
    (hrest : rest = parts ++ [name]) :
    lookupSegs (updateAtSegs root parts (fun c => jsSetChild c name v)) rest = some v := by
  subst hrest
  rw [lookupSegs_append, lookupSegs_update parts root ch _ hparent]
  simp only [Option.some_bind]
  show (match childLookup (jsSetChild ch name v) name with
        | none => none
        | some child => lookupSegs child []) = some v
  rw [childLookup_jsSetChild_self]
  cases v <;> rfl

theorem resolvedParts_ne_nil_of_not_exists (root : FSNode) (cwd target : String)
    (hs : ¬(getNode root (resolvePath cwd target)).isSome = true) :
    resolvedParts cwd target ≠ [] := by
  intro he
  apply hs
  rw [resolvePath_eq_mkPath, he]
  have h0 : mkPath ([] : List String) = "/" := rfl
  rw [h0, getNode_root_slash]
  rfl

theorem mkdirCmd_eval (root : FSNode) (cwd target : String) (h : target ≠ "") :
    mkdirCmd root cwd [target]
      = if (getNode root (resolvePath cwd target)).isSome
        then ("mkdir: cannot create directory ‘" ++ target ++ "’: File exists", root)
        else
          match getNode root (jsOrStr (beforeLastSlashStr (resolvePath cwd target)) "/") with
          | some (.directory _) =>
            ("", updateAtSegs root
                   (splitSegs (jsOrStr (beforeLastSlashStr (resolvePath cwd target)) "/"))
                   (fun ch => jsSetChild ch (afterLastSlashStr (resolvePath cwd target))
                     (.directory [])))
          | _ => ("mkdir: cannot create directory ‘" ++ target
                    ++ "’: No such file or directory", root) := by
  simp only [mkdirCmd, List.headD]
  rw [if_neg h]
  by_cases hs : (getNode root (resolvePath cwd target)).isSome = true
  · rw [if_pos hs, if_pos hs]
  · rw [if_neg hs, if_neg hs]
    have hne : resolvedParts cwd target ≠ [] :=
      resolvedParts_ne_nil_of_not_exists root cwd target hs
    have hgood := resolvedParts_good cwd target
    have hafter : afterLastSlashStr (resolvePath cwd target)
        = (resolvedParts cwd target).getLast hne := by
      rw [resolvePath_eq_mkPath]
      exact afterLast_mkPath _ hgood hne
    have hne2 : afterLastSlashStr (resolvePath cwd target) ≠ "" := by
      rw [hafter]
      exact (hgood _ (List.getLast_mem hne)).1
    rw [if_neg hne2]

/-- C3 counterexample: the claim says a target whose resolved path has an
empty final segment (for example a trailing slash resolving to root) fails
with the invalid-name message — but `/` always resolves to the root, which
always exists, so the code reports `File exists` instead. -/
theorem C3_mkdir_cex :
    mkdirCmd (.directory [("home", .directory [])]) "/home" ["/"]
      = ("mkdir: cannot create directory ‘/’: File exists",
         .directory [("home", .directory [])])
    ∧ ("mkdir: cannot create directory ‘/’: File exists" : String)
        ≠ "mkdir: cannot create directory ‘/’: Invalid argument" :=
  ⟨rfl, by decide⟩

/-- C3 amended: `mkdir` fails with the already-exists message when a node
occupies the resolved path (this covers every resolved path with an empty
final segment, since the only such path is `/`, which always exists — the
invalid-name message is unreachable), fails with the missing-parent message
when the parent does not resolve to a directory, and otherwise creates an
empty directory at the resolved path; every failure message quotes the
original argument. -/
theorem C3_mkdir_amended (root : FSNode) (cwd target : String) (h : target ≠ "") :
    ((getNode root (resolvePath cwd target)).isSome = true →
        mkdirCmd root cwd [target]
          = ("mkdir: cannot create directory ‘" ++ target ++ "’: File exists", root))
    ∧ (∀ t : String, (mkdirCmd root cwd [target]).1
          ≠ "mkdir: cannot create directory ‘" ++ t ++ "’: Invalid argument")
    ∧ ((getNode root (resolvePath cwd target)).isSome = false →
        isDirOpt (getNode root (jsOrStr (beforeLastSlashStr (resolvePath cwd target)) "/"))
          = false →
        mkdirCmd root cwd [target]
          = ("mkdir: cannot create directory ‘" ++ target ++ "’: No such file or directory",
             root))
    ∧ (∀ ch, (getNode root (resolvePath cwd target)).isSome = false →
        getNode root (jsOrStr (beforeLastSlashStr (resolvePath cwd target)) "/")
          = some (.directory ch) →
        (mkdirCmd root cwd [target]).1 = ""
        ∧ getNode (mkdirCmd root cwd [target]).2 (resolvePath cwd target)
            = some (.directory [])) := by
  have he := mkdirCmd_eval root cwd target h
  have hinv : ∀ t : String, (mkdirCmd root cwd [target]).1
      ≠ "mkdir: cannot create directory ‘" ++ t ++ "’: Invalid argument" := by
    intro t
    rw [he]
    by_cases hs : (getNode root (resolvePath cwd target)).isSome = true
    · rw [if_pos hs]
      apply ne_of_revHead
      rw [revHead_append_right _ "’: File exists" (by decide),
          revHead_append_right _ "’: Invalid argument" (by decide)]
      decide
    · rw [if_neg hs]
      cases hp : getNode root (jsOrStr (beforeLastSlashStr (resolvePath cwd target)) "/") with
      | none =>
        apply ne_of_revHead
        rw [revHead_append_right _ "’: No such file or directory" (by decide),
            revHead_append_right _ "’: Invalid argument" (by decide)]
        decide
      | some node =>
        cases node with
        | file c =>
          show ("mkdir: cannot create directory ‘" ++ target
                ++ "’: No such file or directory" : String)
              ≠ "mkdir: cannot create directory ‘" ++ t ++ "’: Invalid argument"
          apply ne_of_revHead
          rw [revHead_append_right _ "’: No such file or directory" (by decide),
              revHead_append_right _ "’: Invalid argument" (by decide)]
          decide
        | directory ch =>
          show ("" : String) ≠ "mkdir: cannot create directory ‘" ++ t ++ "’: Invalid argument"
          apply ne_of_revHead
          rw [revHead_append_right _ "’: Invalid argument" (by decide)]
          decide
  refine ⟨?_, hinv, ?_, ?_⟩
  · intro hs
    rw [he, if_pos hs]
  · intro hs hp
    rw [he, if_neg (by rw [hs]; simp)]
    cases hn : getNode root (jsOrStr (beforeLastSlashStr (resolvePath cwd target)) "/") with
    | none => rfl
    | some node =>
      cases node with
      | file c => rfl
      | directory ch => rw [hn] at hp; simp [isDirOpt] at hp
  · intro ch hs hp
    have hcmd : mkdirCmd root cwd [target]
        = ("", updateAtSegs root
              (splitSegs (jsOrStr (beforeLastSlashStr (resolvePath cwd target)) "/"))
              (fun c => jsSetChild c (afterLastSlashStr (resolvePath cwd target))
                (.directory []))) := by
      rw [he, if_neg (by rw [hs]; simp), hp]
    have hs' : ¬(getNode root (resolvePath cwd target)).isSome = true := by
      rw [hs]; simp
    have hne : resolvedParts cwd target ≠ [] :=
      resolvedParts_ne_nil_of_not_exists root cwd target hs'
    have hgood := resolvedParts_good cwd target
    have hgoodDrop : ∀ x ∈ (resolvedParts cwd target).dropLast, goodSeg x :=
      fun x hx => hgood x (mem_dropLast _ x hx)
    have hafter : afterLastSlashStr (resolvePath cwd target)
        = (resolvedParts cwd target).getLast hne := by
      rw [resolvePath_eq_mkPath]
      exact afterLast_mkPath _ hgood hne
    have hbefore : jsOrStr (beforeLastSlashStr (resolvePath cwd target)) "/"
        = mkPath (resolvedParts cwd target).dropLast := by
      rw [resolvePath_eq_mkPath]
      exact beforeLast_mkPath _ hgood hne
    have hsegsParent : splitSegs (jsOrStr (beforeLastSlashStr (resolvePath cwd target)) "/")
        = (resolvedParts cwd target).dropLast := by
      rw [hbefore]
      exact segs_mkPath _ hgoodDrop
    have hsegsFull : splitSegs (resolvePath cwd target) = resolvedParts cwd target := by
      rw [resolvePath_eq_mkPath]
      exact segs_mkPath _ hgood
    have hparent : lookupSegs root (resolvedParts cwd target).dropLast
        = some (.directory ch) := by
      have := hp
      unfold getNode at this
      rw [hsegsParent] at this
      exact this
    have hdecomp : (resolvedParts cwd target).dropLast
        ++ [(resolvedParts cwd target).getLast hne] = resolvedParts cwd target :=
      List.dropLast_append_getLast hne
    refine ⟨by rw [hcmd], ?_⟩
    rw [hcmd]
    unfold getNode
    rw [hsegsFull, hsegsParent]
    exact lookup_after_create root (resolvedParts cwd target).dropLast
      (resolvedParts cwd target) (afterLastSlashStr (resolvePath cwd target)) ch
      (.directory []) hparent (by rw [hafter]; exact hdecomp.symm)

/-- C3 witness: `mkdir newdir` at `/` in a small tree succeeds and the new
empty directory is found at the resolved path. -/
theorem C3_mkdir_witness :
    (mkdirCmd (.directory [("home", .directory [])]) "/" ["newdir"]).1 = ""
    ∧ getNode (mkdirCmd (.directory [("home", .directory [])]) "/" ["newdir"]).2
        (resolvePath "/" "newdir") = some (.directory []) :=
  (C3_mkdir_amended (.directory [("home", .directory [])]) "/" "newdir"
      (by decide)).2.2.2 [("home", .directory [])] (by decide) (by rfl)

/-- C8: cloning `https://example.com/sample.git` into a directory with no
child named `sample` produces one streamed output entry whose final text ends
with the `Resolving deltas` progress line, and creates a `sample` directory
containing a `.git` directory, a `README.md` file and a `src` directory
holding `main.js`; immediately repeating the same command fails fatally and
leaves the tree unchanged. -/
theorem C8_clone_scenario (root : FSNode) (cwd : String) (ch : List (String × FSNode))
    (hdir : getNode root cwd = some (.directory ch))
    (hchild : childLookup ch "sample" = none) :
    ∃ root',
      gitCloneCmd root cwd "git clone https://example.com/sample.git"
        = ([HistEntry.output (cloneStreamText "sample")], root')
      ∧ endsWithStr (cloneStreamText "sample") "Resolving deltas: 100% (5/5), done." = true
      ∧ getNode root' (cwd ++ "/" ++ "sample")
          = some (.directory
              [(".git", .directory []),
               ("README.md", .file "# sample\n\nA repository cloned with the simulator."),
               ("src", .directory [("main.js", .file "console.log(\"Hello, World!\");")])])
      ∧ gitCloneCmd root' cwd "git clone https://example.com/sample.git"
          = ([HistEntry.output
                "fatal: destination path 'sample' already exists and is not an empty directory."],
             root') := by
  have hseg : splitSegs (cwd ++ "/" ++ "sample") = splitSegs cwd ++ ["sample"] :=
    splitSegs_append_seg cwd "sample" ⟨by decide, by decide⟩
  have hdir' : lookupSegs root (splitSegs cwd) = some (.directory ch) := hdir
  have hnone : getNode root (cwd ++ "/" ++ "sample") = none := by
    unfold getNode
    rw [hseg, lookupSegs_append, hdir']
    simp only [Option.some_bind]
    show (match childLookup ch "sample" with
          | none => none
          | some child => lookupSegs child []) = none
    rw [hchild]
  have hurl : (jsSplitWs "git clone https://example.com/sample.git").getD 2 ""
      = "https://example.com/sample.git" := by decide
  have hname : repoNameOf "https://example.com/sample.git" = "sample" := by decide
  have hcreate : createClonedDirectory root cwd "sample"
      = updateAtSegs root (splitSegs cwd)
          (fun c => jsSetChild c "sample" (repoSubtree "sample")) := by
    unfold createClonedDirectory
    rw [hdir]
    show (if (childLookup ch "sample").isSome = true then root else _) = _
    rw [hchild]
    simp
  have hpost : getNode (updateAtSegs root (splitSegs cwd)
        (fun c => jsSetChild c "sample" (repoSubtree "sample"))) (cwd ++ "/" ++ "sample")
      = some (repoSubtree "sample") := by
    unfold getNode
    rw [hseg]
    exact lookup_after_create root (splitSegs cwd) _ "sample" ch (repoSubtree "sample")
      hdir' rfl
  refine ⟨updateAtSegs root (splitSegs cwd)
            (fun c => jsSetChild c "sample" (repoSubtree "sample")), ?_, by decide, ?_, ?_⟩
  · simp only [gitCloneCmd]
    rw [hurl, if_neg (show ¬("https://example.com/sample.git" : String) = "" by decide),
        hname, hnone]
    simp only [Option.isSome_none]
    rw [if_neg (by simp), hcreate]
  · rw [hpost]
    rfl
  · simp only [gitCloneCmd]
    rw [hurl, if_neg (show ¬("https://example.com/sample.git" : String) = "" by decide),
        hname]
    rw [if_pos (by rw [hpost]; rfl)]
    rfl

/-- C8 witness: the scenario run concretely from an empty root directory. -/
theorem C8_clone_scenario_witness :
    ∃ root',
      gitCloneCmd (FSNode.directory []) "/" "git clone https://example.com/sample.git"
        = ([HistEntry.output (cloneStreamText "sample")], root')
      ∧ endsWithStr (cloneStreamText "sample") "Resolving deltas: 100% (5/5), done." = true
      ∧ getNode root' ("/" ++ "/" ++ "sample")
          = some (.directory
              [(".git", .directory []),
               ("README.md", .file "# sample\n\nA repository cloned with the simulator."),
               ("src", .directory [("main.js", .file "console.log(\"Hello, World!\");")])])
      ∧ gitCloneCmd root' "/" "git clone https://example.com/sample.git"
          = ([HistEntry.output
                "fatal: destination path 'sample' already exists and is not an empty directory."],
             root') :=
  C8_clone_scenario (FSNode.directory []) "/" [] rfl rfl

end Sim
